import Mathlib

/-!
Verification development for the Korean-aware full-text search core
(`src/lib/search.ts` of the md-docs wiki).

Strings are embedded as `List Char` (`Str`).  JavaScript numbers are
embedded as `ℚ` (all constants appearing in the engine are decimal
literals, exact in `ℚ`), and the JS `indexOf` sentinel `-1` is embedded
as `Option Nat` (`none` ↔ `-1`).

Third-party collaborators (the FlexSearch token indices and the
es-hangul `getChoseong` / `disassemble` functions) are not part of the
repository's sources; they are modelled from the specification, and each
such definition is marked `Modelled from the spec:` in its doc comment.
-/

set_option maxRecDepth 4096

attribute [local semireducible] Rat.mul Rat.add Rat.sub Rat.inv Rat.ofScientific

abbrev Str := List Char

/-- Shorthand to write embedded strings with string literals. -/
def strOf (s : String) : Str := s.data

/-- JavaScript whitespace (the class `\s`, also used by `String.trim`):
ASCII whitespace, NBSP, BOM, and the Unicode space separators. -/
def isWs (c : Char) : Bool :=
  (9 ≤ c.toNat && c.toNat ≤ 13) || c.toNat == 32 || c.toNat == 160 ||
  c.toNat == 0x1680 || (0x2000 ≤ c.toNat && c.toNat ≤ 0x200A) ||
  c.toNat == 0x2028 || c.toNat == 0x2029 || c.toNat == 0x202F ||
  c.toNat == 0x205F || c.toNat == 0x3000 || c.toNat == 0xFEFF

/-- JS `String.prototype.trim`: drop whitespace from both ends. -/
def trim (s : Str) : Str :=
  ((s.dropWhile isWs).reverse.dropWhile isWs).reverse

/-- Character-wise lowercasing, embedding JS `toLowerCase` (the strings
appearing in this development only exercise its ASCII behaviour). -/
def strLower (s : Str) : Str := s.map Char.toLower

/-- JS `String.prototype.indexOf`: position of the first occurrence of
`sub` in `s` at a position `≥ start`; `none` embeds the JS result `-1`. -/
def jsIndexOfFrom (s sub : Str) (start : Nat) : Option Nat :=
  (List.range (s.length + 1)).find? (fun i =>
    decide (start ≤ i) && sub.isPrefixOf (s.drop i))

/-- JS `s.indexOf(sub)`. -/
def jsIndexOf (s sub : Str) : Option Nat := jsIndexOfFrom s sub 0

/-- JS `String.prototype.includes`. -/
def strIncludes (s sub : Str) : Bool := (jsIndexOf s sub).isSome

/-- JS `s.indexOf(c, start)` for a single character. -/
def jsIndexOfCharFrom (s : Str) (c : Char) (start : Nat) : Option Nat :=
  (List.range s.length).find? (fun i =>
    decide (start ≤ i) && (s.drop i).headI == c)

/-- JS `s.lastIndexOf(c, stop)` for a single character: the largest
position `≤ stop` holding `c`; `none` embeds `-1`. -/
def jsLastIndexOfCharUpTo (s : Str) (c : Char) (stop : Nat) : Option Nat :=
  (List.range (min (stop + 1) s.length)).reverse.find? (fun i =>
    (s.drop i).headI == c)

/-- JS `s.slice(a, b)` for `0 ≤ a`, `b ≤ s.length`. -/
def sliceStr (s : Str) (a b : Nat) : Str := (s.drop a).take (b - a)

/-- JS `s.split(/\s+/)`: split on maximal whitespace runs; a leading or
trailing run contributes an empty field, exactly as in JS.  The fuel
argument of the worker is an upper bound on the recursion depth; the
wrapper supplies `s.length + 1`, which is never exhausted because every
step consumes at least one character. -/
def jsSplitWsGo : Nat → Str → Str → List Str
  | 0, cur, s => [cur.reverse ++ s]
  | _, cur, [] => [cur.reverse]
  | fuel + 1, cur, c :: rest =>
    if isWs c then cur.reverse :: jsSplitWsGo fuel [] (rest.dropWhile isWs)
    else jsSplitWsGo fuel (c :: cur) rest

/-- JS `s.split(/\s+/)`. -/
def jsSplitWs (s : Str) : List Str := jsSplitWsGo (s.length + 1) [] s

/-- Whitespace-delimited words of a string, empty fields dropped.  Used
by the model of the token indices (spec §4.3/§9: word-boundary-delimited
tokens). -/
def wordsOfGo (cur : Str) : Str → List Str
  | [] => if cur.isEmpty then [] else [cur.reverse]
  | c :: cs =>
    if isWs c then
      if cur.isEmpty then wordsOfGo [] cs else cur.reverse :: wordsOfGo [] cs
    else wordsOfGo (c :: cur) cs

def wordsOf (s : Str) : List Str := wordsOfGo [] s

-- ============================================
-- Korean Language Utilities (from source)
-- ============================================

/-- The `isKorean` from the source: the character's code point lies in one of
the Hangul Unicode blocks. -/
def isKorean (c : Char) : Bool :=
  let code := c.toNat
  (0xac00 ≤ code && code ≤ 0xd7af) ||
  (0x1100 ≤ code && code ≤ 0x11ff) ||
  (0x3130 ≤ code && code ≤ 0x318f) ||
  (0xa960 ≤ code && code ≤ 0xa97f) ||
  (0xd7b0 ≤ code && code ≤ 0xd7ff)

/-- The `containsKorean` from the source. -/
def containsKorean (s : Str) : Bool := s.any isKorean

/-- A character in the regex range `[ㄱ-ㅎ]` (U+3131 to U+314E). -/
def isChosungChar (c : Char) : Bool :=
  0x3131 ≤ c.toNat && c.toNat ≤ 0x314E

/-- The `isChosungOnly` from the source: the regex `/^[ㄱ-ㅎ]+$/`. -/
def isChosungOnly (s : Str) : Bool := !s.isEmpty && s.all isChosungChar

/-- The 19 initial consonants, in Unicode syllable order. -/
def choseongTable : Str := strOf "ㄱㄲㄴㄷㄸㄹㅁㅂㅃㅅㅆㅇㅈㅉㅊㅋㅌㅍㅎ"

/-- The 21 medial vowels, in Unicode syllable order. -/
def jungseongTable : Str := strOf "ㅏㅐㅑㅒㅓㅔㅕㅖㅗㅘㅙㅚㅛㅜㅝㅞㅟㅠㅡㅢㅣ"

/-- The 28 final-consonant slots (slot 0 empty), decomposed into their
constituent jamo. -/
def jongseongTable : List Str :=
  ["", "ㄱ", "ㄲ", "ㄱㅅ", "ㄴ", "ㄴㅈ", "ㄴㅎ", "ㄷ", "ㄹ", "ㄹㄱ", "ㄹㅁ",
   "ㄹㅂ", "ㄹㅅ", "ㄹㅌ", "ㄹㅍ", "ㄹㅎ", "ㅁ", "ㅂ", "ㅂㅅ", "ㅅ", "ㅆ",
   "ㅇ", "ㅈ", "ㅊ", "ㅋ", "ㅌ", "ㅍ", "ㅎ"].map strOf

/-- A precomposed Hangul syllable (U+AC00 to U+D7A3). -/
def isHangulSyllable (c : Char) : Bool :=
  0xAC00 ≤ c.toNat && c.toNat ≤ 0xD7A3

/-- Initial consonant of a precomposed syllable. -/
def syllableChoseong (c : Char) : Char :=
  choseongTable.getD ((c.toNat - 0xAC00) / 588) 'ㄱ'

/-- Modelled from the spec: the es-hangul `getChoseong` collaborator
(§4.2).  Each precomposed Hangul syllable maps to its leading consonant
jamo; the spec leaves non-Hangul characters to "pass through unchanged or
be skipped" — here consonant jamo and whitespace pass through and other
characters are skipped, matching the collaborator's observable behaviour
on the corpus of interest. -/
def getChoseong (s : Str) : Str :=
  s.filterMap (fun c =>
    if isHangulSyllable c then some (syllableChoseong c)
    else if isChosungChar c then some c
    else if isWs c then some c
    else none)

/-- Jamo decomposition of one character (non-syllables pass through). -/
def disassembleChar (c : Char) : Str :=
  if isHangulSyllable c then
    let off := c.toNat - 0xAC00
    [choseongTable.getD (off / 588) 'ㄱ',
     jungseongTable.getD ((off % 588) / 28) 'ㅏ'] ++
    (jongseongTable.getD (off % 28) [])
  else [c]

/-- Modelled from the spec: the es-hangul `disassemble` collaborator
(§4.2): full phonemic decomposition of each Hangul syllable into its
jamo components (initial + medial + final), concatenated; non-Hangul
characters pass through.  Total in the model (the source wraps calls in
`try`/`catch`, and the spec makes failures fail-soft). -/
def disassemble (s : Str) : Str := (s.map disassembleChar).flatten

/-- The `chosungIncludes` from the source. -/
def chosungIncludes (text chosungQuery : Str) : Bool :=
  strIncludes (getChoseong text) chosungQuery

/-- First-occurrence deduplication, embedding JS `[...new Set(l)]` and
the insertion-order key set of a JS `Map`. -/
def dedupFirstGo {α : Type} [DecidableEq α] (seen : List α) :
    List α → List α
  | [] => []
  | x :: xs =>
    if x ∈ seen then dedupFirstGo seen xs
    else x :: dedupFirstGo (x :: seen) xs

def dedupFirst {α : Type} [DecidableEq α] (l : List α) : List α :=
  dedupFirstGo [] l

/-- The `normalizeKoreanQuery` from the source.  Note the chosung-only
branch pushes `query` onto a list already containing it and returns
without the final `Set`-based deduplication. -/
def normalizeKoreanQuery (query : Str) : List Str :=
  if isChosungOnly query then [query, query]
  else if containsKorean query then
    let base := [query] ++
      (if disassemble query ≠ query then [disassemble query] else []) ++
      (if ¬(getChoseong query).isEmpty ∧ getChoseong query ≠ query then
        [getChoseong query] else [])
    dedupFirst base
  else dedupFirst [query]

/-- The `koreanMatch` from the source: direct case-insensitive substring,
else chosung containment for chosung-only queries, else containment of
disassembled forms for Korean queries. -/
def koreanMatch (text query : Str) : Bool :=
  if strIncludes (strLower text) (strLower query) then true
  else if isChosungOnly query then chosungIncludes text query
  else if containsKorean query then
    strIncludes (strLower (disassemble text)) (strLower (disassemble query))
  else false

-- ============================================
-- Text Normalizer (from source: stripMarkdown, extractHeadings)
-- ============================================

/-!
Each `replace` pass of `stripMarkdown` is embedded as a recursive
scanner over the current suffix.  The scanners carry a fuel argument
bounding the recursion depth; the wrappers supply `s.length + 1`, which
is never exhausted because every step consumes at least one character of
the suffix.  Scanners for the `m`-flagged patterns additionally carry
an `atStart` flag holding exactly when the current position is preceded
by a newline (or is the start of the input), which is how the `^`
anchor of a JS multiline regex behaves.
-/

/-- Pass `/```[\s\S]*?```/g → " "`: fenced code blocks, lazy inner. -/
def stripCodeBlocksGo : Nat → Str → Str
  | 0, s => s
  | fuel + 1, s =>
    match jsIndexOf s (strOf "```") with
    | none => s
    | some i =>
      match jsIndexOfFrom s (strOf "```") (i + 3) with
      | none => s
      | some j => s.take i ++ [' '] ++ stripCodeBlocksGo fuel (s.drop (j + 3))

def stripCodeBlocks (s : Str) : Str := stripCodeBlocksGo (s.length + 1) s

/-- Pass `/`[^`]+`/g → " "`: inline code spans (nonempty body). -/
def stripInlineCodeGo : Nat → Str → Str
  | 0, s => s
  | _, [] => []
  | fuel + 1, c :: rest =>
    if c = '`' then
      let body := rest.takeWhile (fun x => x != '`')
      let after := rest.dropWhile (fun x => x != '`')
      match after with
      | [] => c :: stripInlineCodeGo fuel rest
      | _ :: after1 =>
        if body.isEmpty then c :: stripInlineCodeGo fuel rest
        else ' ' :: stripInlineCodeGo fuel after1
    else c :: stripInlineCodeGo fuel rest

def stripInlineCode (s : Str) : Str := stripInlineCodeGo (s.length + 1) s

/-- Pass `/\[([^\]]+)\]\([^)]+\)/g → "$1"`: link syntax, keeping the
link text. -/
def stripLinksGo : Nat → Str → Str
  | 0, s => s
  | _, [] => []
  | fuel + 1, c :: rest =>
    if c = '[' then
      let label := rest.takeWhile (fun x => x != ']')
      match rest.dropWhile (fun x => x != ']') with
      | [] => c :: stripLinksGo fuel rest
      | _ :: rest2 =>
        match rest2 with
        | '(' :: rest3 =>
          let url := rest3.takeWhile (fun x => x != ')')
          match rest3.dropWhile (fun x => x != ')') with
          | [] => c :: stripLinksGo fuel rest
          | _ :: rest4 =>
            if label.isEmpty ∨ url.isEmpty then c :: stripLinksGo fuel rest
            else label ++ stripLinksGo fuel rest4
        | _ => c :: stripLinksGo fuel rest
    else c :: stripLinksGo fuel rest

def stripLinks (s : Str) : Str := stripLinksGo (s.length + 1) s

/-- Pass `/!\[([^\]]*)\]\([^)]+\)/g → " "`: image syntax (label may be
empty), dropped entirely. -/
def stripImagesGo : Nat → Str → Str
  | 0, s => s
  | _, [] => []
  | fuel + 1, c :: rest =>
    if c = '!' then
      match rest with
      | '[' :: rest1 =>
        match rest1.dropWhile (fun x => x != ']') with
        | [] => c :: stripImagesGo fuel rest
        | _ :: rest2 =>
          match rest2 with
          | '(' :: rest3 =>
            let url := rest3.takeWhile (fun x => x != ')')
            match rest3.dropWhile (fun x => x != ')') with
            | [] => c :: stripImagesGo fuel rest
            | _ :: rest4 =>
              if url.isEmpty then c :: stripImagesGo fuel rest
              else ' ' :: stripImagesGo fuel rest4
          | _ => c :: stripImagesGo fuel rest
      | _ => c :: stripImagesGo fuel rest
    else c :: stripImagesGo fuel rest

def stripImages (s : Str) : Str := stripImagesGo (s.length + 1) s

/-- An emphasis marker character (the class `[*_]`). -/
def isEm (c : Char) : Bool := c == '*' || c == '_'

/-- Pass `/[*_]{1,3}([^*_]+)[*_]{1,3}/g → "$1"`: bold/italic markers,
keeping the inner text.  A match needs an opening run of at most three
markers at the current position (the regex engine advances one character
at a time through longer runs), a nonempty marker-free body, and at
least one closing marker, of which up to three are consumed. -/
def stripEmphasisGo : Nat → Str → Str
  | 0, s => s
  | _, [] => []
  | fuel + 1, c :: rest =>
    if isEm c then
      let a := ((c :: rest).takeWhile isEm).length
      if a ≤ 3 then
        let body := ((c :: rest).drop a).takeWhile (fun x => !isEm x)
        let afterBody := ((c :: rest).drop a).dropWhile (fun x => !isEm x)
        if body.isEmpty ∨ afterBody.isEmpty then c :: stripEmphasisGo fuel rest
        else
          let b := (afterBody.takeWhile isEm).length
          body ++ stripEmphasisGo fuel (afterBody.drop (min b 3))
      else c :: stripEmphasisGo fuel rest
    else c :: stripEmphasisGo fuel rest

def stripEmphasis (s : Str) : Str := stripEmphasisGo (s.length + 1) s

/-- Pass `/^#{1,6}\s+/gm → ""`: heading markers at a line start followed
by a whitespace run (which, being `\s+`, may extend across newlines) are
removed. -/
def stripHeadingMarkersGo : Nat → Bool → Str → Str
  | 0, _, s => s
  | _, _, [] => []
  | fuel + 1, atStart, c :: rest =>
    if atStart && c == '#' then
      let hashes := (c :: rest).takeWhile (fun x => x == '#')
      let afterH := (c :: rest).dropWhile (fun x => x == '#')
      if hashes.length ≤ 6 && (afterH.headI |> isWs) && !afterH.isEmpty then
        let ws := afterH.takeWhile isWs
        let afterW := afterH.dropWhile isWs
        stripHeadingMarkersGo fuel (ws.getLast? == some '\n') afterW
      else c :: stripHeadingMarkersGo fuel false rest
    else c :: stripHeadingMarkersGo fuel (c == '\n') rest

def stripHeadingMarkers (s : Str) : Str :=
  stripHeadingMarkersGo (s.length + 1) true s

/-- Pass `/^[-*_]{3,}$/gm → " "`: a line consisting solely of three or
more rule characters becomes a single space. -/
def stripHorizontalRules (s : Str) : Str :=
  List.intercalate ['\n'] ((s.splitOn '\n').map (fun line =>
    if 3 ≤ line.length && line.all (fun x => x == '-' || x == '*' || x == '_')
    then [' '] else line))

/-- Pass `/^>\s+/gm → ""`: blockquote markers. -/
def stripBlockquotesGo : Nat → Bool → Str → Str
  | 0, _, s => s
  | _, _, [] => []
  | fuel + 1, atStart, c :: rest =>
    if atStart && c == '>' && (rest.headI |> isWs) && !rest.isEmpty then
      let ws := rest.takeWhile isWs
      stripBlockquotesGo fuel (ws.getLast? == some '\n') (rest.dropWhile isWs)
    else c :: stripBlockquotesGo fuel (c == '\n') rest

def stripBlockquotes (s : Str) : Str := stripBlockquotesGo (s.length + 1) true s

/-- Pass `/^[\s]*[-*+]\s+/gm → " "`: unordered list markers.  The
leading `[\s]*` is anchored at a line start; only its maximal extent can
be followed by a marker character. -/
def stripListMarkersGo : Nat → Bool → Str → Str
  | 0, _, s => s
  | _, _, [] => []
  | fuel + 1, atStart, c :: rest =>
    (if atStart then
      let afterLead := (c :: rest).dropWhile isWs
      match afterLead with
      | m :: rest2 =>
        if (m == '-' || m == '*' || m == '+') && (rest2.headI |> isWs)
            && !rest2.isEmpty then
          let ws := rest2.takeWhile isWs
          some (' ' :: stripListMarkersGo fuel (ws.getLast? == some '\n')
            (rest2.dropWhile isWs))
        else none
      | [] => none
    else none).getD (c :: stripListMarkersGo fuel (c == '\n') rest)

def stripListMarkers (s : Str) : Str := stripListMarkersGo (s.length + 1) true s

/-- Pass `/^[\s]*\d+\.\s+/gm → " "`: ordered list markers. -/
def stripNumberedMarkersGo : Nat → Bool → Str → Str
  | 0, _, s => s
  | _, _, [] => []
  | fuel + 1, atStart, c :: rest =>
    (if atStart then
      let afterLead := (c :: rest).dropWhile isWs
      let digits := afterLead.takeWhile (fun x => x.isDigit)
      let afterDigits := afterLead.dropWhile (fun x => x.isDigit)
      match afterDigits with
      | '.' :: rest2 =>
        if !digits.isEmpty && (rest2.headI |> isWs) && !rest2.isEmpty then
          let ws := rest2.takeWhile isWs
          some (' ' :: stripNumberedMarkersGo fuel (ws.getLast? == some '\n')
            (rest2.dropWhile isWs))
        else none
      | _ => none
    else none).getD (c :: stripNumberedMarkersGo fuel (c == '\n') rest)

def stripNumberedMarkers (s : Str) : Str :=
  stripNumberedMarkersGo (s.length + 1) true s

/-- Pass `/\s+/g → " "`: collapse every whitespace run to one space. -/
def collapseWsGo : Nat → Str → Str
  | 0, s => s
  | _, [] => []
  | fuel + 1, c :: rest =>
    if isWs c then ' ' :: collapseWsGo fuel (rest.dropWhile isWs)
    else c :: collapseWsGo fuel rest

def collapseWs (s : Str) : Str := collapseWsGo (s.length + 1) s

/-- The `stripMarkdown` from the source: the twelve `replace`/`trim` passes
in source order. -/
def stripMarkdown (content : Str) : Str :=
  trim (collapseWs (stripNumberedMarkers (stripListMarkers (stripBlockquotes
    (stripHorizontalRules (stripHeadingMarkers (stripEmphasis (stripImages
      (stripLinks (stripInlineCode (stripCodeBlocks content)))))))))))

/-- One line of `extractHeadings`' regex `/^#{1,3}\s+(.+)$/gm`: one to
three hashes, then a whitespace character with at least one further
character on the line (`\s+(.+)` with backtracking), capture trimmed. -/
def headingOfLine (line : Str) : Option Str :=
  let hashes := line.takeWhile (fun x => x == '#')
  let r := line.dropWhile (fun x => x == '#')
  if 1 ≤ hashes.length ∧ hashes.length ≤ 3 ∧ 2 ≤ r.length ∧ isWs r.headI then
    some (trim (r.dropWhile isWs))
  else none

/-- The `extractHeadings` from the source: H1-H3 heading texts, trimmed, in
document order. -/
def extractHeadings (content : Str) : List Str :=
  (content.splitOn '\n').filterMap headingOfLine

-- ============================================
-- Data model (from src/types) and index construction
-- ============================================

/-- The `DocumentFrontmatter` from `src/types` (fields unused by the search
core are kept as optional data). -/
structure DocumentFrontmatter where
  title : Str := []
  tags : Option (List Str) := none
  created : Option Str := none
  updated : Option Str := none
  public : Option Bool := none
deriving DecidableEq

/-- The `Document` from `src/types`.  The optional `children` tree, which
the search core never reads, is omitted. -/
structure Document where
  slug : Str
  path : Str
  title : Str
  content : Str
  frontmatter : DocumentFrontmatter := {}
deriving DecidableEq

/-- The `IndexedDocument` from the source. -/
structure IndexedDocument where
  id : Nat
  slug : Str
  title : Str
  path : Str
  content : Str
  tags : List Str
  headings : List Str
deriving DecidableEq

/-- The `SearchResult` from `src/types`; the score is the integer produced
by `Math.round`. -/
structure SearchResult where
  slug : Str
  title : Str
  path : Str
  excerpt : Str
  score : ℤ
deriving DecidableEq

/-- The `SearchOptions` from the source (`none` = field absent, so the
defaults `limit 20`, `fuzzy true`, `threshold 0.3` apply). -/
structure SearchOptions where
  limit : Option Nat := none
  fuzzy : Option Bool := none
  threshold : Option ℚ := none

/-- The `SearchIndex` of the source holds four FlexSearch token indices
plus the `documents` map.  Under forward-prefix tokenization the content
of each token index is determined by the indexed field texts (spec §4.3
and §9), so the embedded index is the documents table itself, with ids
equal to positions, and the token indices are realised by the
`probeField` query model below. -/
abbrev SearchIndex := List IndexedDocument

/-- The `createSearchIndex` from the source: assign 0-based sequential ids
in input order; strip markdown; extract headings; default missing tags
to `[]`. -/
def createSearchIndex (documents : List Document) : SearchIndex :=
  documents.enum.map (fun p =>
    { id := p.1
      slug := p.2.slug
      title := p.2.title
      path := p.2.path
      content := stripMarkdown p.2.content
      tags := p.2.frontmatter.tags.getD []
      headings := extractHeadings p.2.content })

-- ============================================
-- Query engine (from source: search and helpers)
-- ============================================

/-- The `WEIGHTS` table from the source. -/
def WEIGHTS_title : ℚ := 3
def WEIGHTS_tags : ℚ := 2.5
def WEIGHTS_headings : ℚ := 2
def WEIGHTS_content : ℚ := 1

/-- The `maxPossibleScore` from the source's normalization step. -/
def maxPossibleScore : ℚ :=
  WEIGHTS_title + WEIGHTS_tags + WEIGHTS_headings + WEIGHTS_content

/-- JS `Math.round`: round half toward positive infinity. -/
def jsRound (q : ℚ) : ℤ := ⌊q + 1 / 2⌋

/-- The `calculateSimilarity` from the source: `1` on case-insensitive
equality, `0.9` when either lowercased string contains the other,
otherwise character-set overlap over the larger set size. -/
def calculateSimilarity (str1 str2 : Str) : ℚ :=
  let s1 := strLower str1
  let s2 := strLower str2
  if s1 = s2 then 1
  else if strIncludes s1 s2 || strIncludes s2 s1 then 0.9
  else
    let chars1 := dedupFirst s1
    let chars2 := dedupFirst s2
    let overlap := (chars1.filter (fun c => decide (c ∈ chars2))).length
    (overlap : ℚ) / (max chars1.length chars2.length : ℚ)

/-- Left-edge adjustment of the excerpt window: snap forward to just
after the next space, when that space precedes the match. -/
def excerptStart (content : Str) (matchIndex start0 : Nat) : Nat :=
  if 0 < start0 then
    match jsIndexOfCharFrom content ' ' start0 with
    | some si => if si < matchIndex then si + 1 else start0
    | none => start0
  else start0

/-- Right-edge adjustment of the excerpt window: snap backward to the
previous space, when that space follows the match. -/
def excerptEnd (content : Str) (matchIndex end0 : Nat) : Nat :=
  if end0 < content.length then
    match jsLastIndexOfCharUpTo content ' ' end0 with
    | some si => if matchIndex < si then si else end0
    | none => end0
  else end0

/-- The windowed excerpt built around a found match position: a window
of `maxLength / 2` characters each side of the match, edges snapped to
word boundaries, ellipses added at cut edges. -/
def excerptAround (content query : Str) (maxLength matchIndex : Nat) : Str :=
  let halfLength := maxLength / 2
  let start1 := excerptStart content matchIndex (matchIndex - halfLength)
  let end1 := excerptEnd content matchIndex
    (min content.length (matchIndex + query.length + halfLength))
  (if 0 < start1 then strOf "..." else []) ++ sliceStr content start1 end1 ++
    (if end1 < content.length then strOf "..." else [])

/-- The match-position search of `extractExcerpt`: the three passes
(direct lowercased `indexOf`, chosung word scan, disassembled word scan)
in source order; `none` embeds the JS `-1`. -/
def excerptMatchIndex (content query : Str) : Option Nat :=
  let lowerContent := strLower content
  let lowerQuery := strLower query
  let m0 := jsIndexOf lowerContent lowerQuery
  let m1 :=
    if m0 = none ∧ isChosungOnly query then
      match (jsSplitWs content).find? (fun w => chosungIncludes w query) with
      | some w => jsIndexOf content w
      | none => m0
    else m0
  if m1 = none ∧ containsKorean query then
    let queryDis := strLower (disassemble query)
    match (jsSplitWs content).find? (fun w =>
        strIncludes (strLower (disassemble w)) queryDis) with
    | some w => jsIndexOf content w
    | none => m1
  else m1

/-- The `extractExcerpt` from the source.  Subtractions are on `ℕ`, which
coincides with the source's `Math.max(0, ...)` clamping. -/
def extractExcerpt (content query : Str) (maxLength : Nat := 150) : Str :=
  match excerptMatchIndex content query with
  | none =>
    content.take maxLength ++
      (if maxLength < content.length then strOf "..." else [])
  | some matchIndex => excerptAround content query maxLength matchIndex

/-- Modelled from the spec: a FlexSearch `tokenize: "forward"` index
lookup (§4.3, §9 and glossary): every whitespace-delimited word of the
indexed text is a token, a token matches a query word iff the query word
is a prefix of it, a multi-word query must match in each of its words,
and comparison is lowercased.  A variant with no words matches nothing. -/
def indexQueryMatch (text variant : Str) : Bool :=
  let qws := wordsOf (strLower variant)
  !qws.isEmpty && qws.all (fun w =>
    (wordsOf (strLower text)).any (fun t => w.isPrefixOf t))

def titleField (d : IndexedDocument) : Option Str := some d.title

def contentField (d : IndexedDocument) : Option Str := some d.content

/-- Tags are indexed joined by spaces, and only when nonempty. -/
def tagField (d : IndexedDocument) : Option Str :=
  if d.tags.isEmpty then none else some (List.intercalate [' '] d.tags)

/-- Headings are indexed joined by spaces, and only when nonempty. -/
def headingField (d : IndexedDocument) : Option Str :=
  if d.headings.isEmpty then none else some (List.intercalate [' '] d.headings)

/-- Modelled from the spec: `index.search(variant, { limit })`: the ids
of the documents whose indexed field text matches the variant, truncated
to the probe limit (the candidate-pool bounds of §4.4 step 3). -/
def probeField (idx : SearchIndex) (field : IndexedDocument → Option Str)
    (variant : Str) (lim : Nat) : List Nat :=
  ((List.range idx.length).filter (fun i =>
    match idx[i]? with
    | some d =>
      match field d with
      | some text => indexQueryMatch text variant
      | none => false
    | none => false)).take lim

def flatMapL {α β : Type} (f : α → List β) (l : List α) : List β :=
  (l.map f).flatten

/-- One `addScore` call of the source, embedded as an (id, weight)
event.  The JS scores `Map` is recovered from the event list: the value
at a key is the sum of its weights, and the key insertion order is the
first-occurrence order of ids. -/
abbrev ScoreEvent := Nat × ℚ

/-- The weighted-field scoring pass (§4.4 step 3): probe the four token
indices with every query variant, with per-field probe limits 50 / 50 /
50 / 100. -/
def tokenEvents (idx : SearchIndex) (query : Str) : List ScoreEvent :=
  flatMapL (fun v =>
    (probeField idx titleField v 50).map (fun i => (i, WEIGHTS_title)) ++
    (probeField idx tagField v 50).map (fun i => (i, WEIGHTS_tags)) ++
    (probeField idx headingField v 50).map (fun i => (i, WEIGHTS_headings)) ++
    (probeField idx contentField v 100).map (fun i => (i, WEIGHTS_content)))
    (normalizeKoreanQuery (trim query))

/-- The `addScore` calls the Korean-specific pass makes for one document
(the tag and heading loops `break` after the first match). -/
def koreanDocEvents (i : Nat) (doc : IndexedDocument) (query : Str) :
    List ScoreEvent :=
  (if koreanMatch doc.title query then [(i, WEIGHTS_title * 0.8)] else []) ++
  (if doc.tags.any (fun t => koreanMatch t query) then
    [(i, WEIGHTS_tags * 0.8)] else []) ++
  (if doc.headings.any (fun h => koreanMatch h query) then
    [(i, WEIGHTS_headings * 0.8)] else []) ++
  (if koreanMatch (doc.content.take 5000) query then
    [(i, WEIGHTS_content * 0.8)] else [])

/-- The Korean-specific pass (§4.4 step 4), keyed on the original,
untrimmed query. -/
def koreanEvents (idx : SearchIndex) (query : Str) : List ScoreEvent :=
  if containsKorean query || isChosungOnly query then
    flatMapL (fun i =>
      match idx[i]? with
      | some doc => koreanDocEvents i doc query
      | none => []) (List.range idx.length)
  else []

/-- The fuzzy fallback (§4.4 step 5): runs only when fuzzy is enabled
and no document scored in the two previous passes. -/
def fuzzyEvents (idx : SearchIndex) (query : Str) (opts : SearchOptions) :
    List ScoreEvent :=
  if opts.fuzzy.getD true &&
      (tokenEvents idx query ++ koreanEvents idx query).isEmpty then
    flatMapL (fun i =>
      match idx[i]? with
      | some doc =>
        let similarity := calculateSimilarity doc.title query
        if opts.threshold.getD 0.3 ≤ similarity then
          [(i, WEIGHTS_title * similarity)]
        else []
      | none => []) (List.range idx.length)
  else []

/-- All `addScore` events of one `search` call, in source order. -/
def searchEvents (idx : SearchIndex) (query : Str) (opts : SearchOptions) :
    List ScoreEvent :=
  tokenEvents idx query ++ koreanEvents idx query ++ fuzzyEvents idx query opts

/-- Value of the JS scores `Map` at key `i` (`0` when absent). -/
def rawOf (events : List ScoreEvent) (i : Nat) : ℚ :=
  ((events.filter (fun e => e.1 == i)).map (fun e => e.2)).sum

/-- The accumulated raw score of document `i` for a query. -/
def searchRawScore (idx : SearchIndex) (query : Str) (opts : SearchOptions)
    (i : Nat) : ℚ :=
  rawOf (searchEvents idx query opts) i

/-- The result record built for one scored document: normalization (§4.4
step 6, `Math.min(100, Math.round(score / maxPossibleScore * 100))`) and
excerpt extraction (step 7). -/
def mkSearchResult (doc : IndexedDocument) (query : Str) (raw : ℚ) :
    SearchResult :=
  { slug := doc.slug
    title := doc.title
    path := doc.path
    excerpt := extractExcerpt doc.content query
    score := min 100 (jsRound (raw / maxPossibleScore * 100)) }

/-- One insertion step of the stable descending sort embedding
`results.sort((a, b) => b.score - a.score)`. -/
def insertByScore (r : SearchResult) :
    List SearchResult → List SearchResult
  | [] => [r]
  | x :: xs =>
    if x.score ≤ r.score then r :: x :: xs else x :: insertByScore r xs

/-- Stable sort by score descending. -/
def sortByScoreDesc (l : List SearchResult) : List SearchResult :=
  l.foldr insertByScore []

/-- The keys of the JS scores `Map`, in insertion order: first
occurrence of each id among the `addScore` events. -/
def searchIds (idx : SearchIndex) (query : Str) (opts : SearchOptions) :
    List Nat :=
  dedupFirst ((searchEvents idx query opts).map (fun e => e.1))

/-- The `results` array of the source before sorting and truncation: one
record per scored document, in scores-`Map` iteration order. -/
def searchResultsPre (idx : SearchIndex) (query : Str)
    (opts : SearchOptions) : List SearchResult :=
  (searchIds idx query opts).filterMap (fun i =>
    (idx[i]?).map (fun doc =>
      mkSearchResult doc query (searchRawScore idx query opts i)))

/-- The `search` from the source.  The `matchedFields` map of the source is
not embedded: it is never read when producing results.  Following §9 of
the spec, the iteration order of the scores `Map` is its key insertion
order, i.e. the first-occurrence order of ids in the event list. -/
def search (idx : SearchIndex) (query : Str)
    (opts : SearchOptions := {}) : List SearchResult :=
  if (trim query).isEmpty then []
  else (sortByScoreDesc (searchResultsPre idx query opts)).take
    (opts.limit.getD 20)

/-- The per-document contribution of the Korean-specific pass as the
spec states it: 0.8 × field weight for a `koreanMatch` on the title, on
some tag, on some heading, and on the first 5000 characters of the plain
content. -/
def koreanContrib (doc : IndexedDocument) (q : Str) : ℚ :=
  (if koreanMatch doc.title q then WEIGHTS_title * 0.8 else 0) +
  (if doc.tags.any (fun t => koreanMatch t q) then WEIGHTS_tags * 0.8 else 0) +
  (if doc.headings.any (fun h => koreanMatch h q) then
    WEIGHTS_headings * 0.8 else 0) +
  (if koreanMatch (doc.content.take 5000) q then WEIGHTS_content * 0.8 else 0)

/-- The `IndexedDocument` built for position `i` by `createSearchIndex`. -/
def indexedAt (documents : List Document) (i : Nat) (hi : i < documents.length) :
    IndexedDocument :=
  { id := i
    slug := (documents.get ⟨i, hi⟩).slug
    title := (documents.get ⟨i, hi⟩).title
    path := (documents.get ⟨i, hi⟩).path
    content := stripMarkdown (documents.get ⟨i, hi⟩).content
    tags := (documents.get ⟨i, hi⟩).frontmatter.tags.getD []
    headings := extractHeadings (documents.get ⟨i, hi⟩).content }

-- ============================================
-- Concrete corpora used by witnesses and counterexamples
-- ============================================

/-- Document with slug `a` and title `hello`. -/
def cexDocA : Document :=
  { slug := strOf "a", path := strOf "a", title := strOf "hello",
    content := [] }

/-- Document with slug `b` and title `ell world`. -/
def cexDocB : Document :=
  { slug := strOf "b", path := strOf "b", title := strOf "ell world",
    content := [] }

/-- Indexed document with the Hangul title `가나다`. -/
def kanadaDoc : IndexedDocument :=
  { id := 0, slug := strOf "k", title := strOf "가나다", path := strOf "k",
    content := [], tags := [], headings := [] }

/-- Indexed document with the Hangul title `프로젝트 문서`. -/
def projectDoc : IndexedDocument :=
  { id := 0, slug := strOf "p", title := strOf "프로젝트 문서",
    path := strOf "p", content := [], tags := [], headings := [] }

/-- Indexed document with the title `hello`. -/
def helloDoc : IndexedDocument :=
  { id := 0, slug := strOf "hello", title := strOf "hello",
    path := strOf "hello", content := [], tags := [], headings := [] }

/-- The one result of searching `hel` over the `helloDoc` corpus. -/
def helloHelResult : SearchResult :=
  mkSearchResult helloDoc (strOf "hel")
    (searchRawScore [helloDoc] (strOf "hel") {} 0)

-- ============================================
-- Lemma library
-- ============================================

theorem dedupFirstGo_mem {α : Type} [DecidableEq α] (seen l : List α) (a : α) :
    a ∈ dedupFirstGo seen l ↔ (a ∈ l ∧ a ∉ seen) := by
  induction l generalizing seen with
  | nil => simp [dedupFirstGo]
  | cons x xs ih =>
    by_cases hx : x ∈ seen
    · by_cases hax : a = x
      · subst hax
        simp only [dedupFirstGo, if_pos hx, ih, List.mem_cons]
        tauto
      · simp only [dedupFirstGo, if_pos hx, ih, List.mem_cons]
        tauto
    · by_cases hax : a = x
      · subst hax
        simp only [dedupFirstGo, if_neg hx, List.mem_cons, ih]
        tauto
      · simp only [dedupFirstGo, if_neg hx, List.mem_cons, ih]
        tauto

theorem mem_dedupFirst {α : Type} [DecidableEq α] {l : List α} {a : α} :
    a ∈ dedupFirst l ↔ a ∈ l := by
  simp [dedupFirst, dedupFirstGo_mem]

theorem dedupFirstGo_nodup {α : Type} [DecidableEq α] (seen l : List α) :
    (dedupFirstGo seen l).Nodup := by
  induction l generalizing seen with
  | nil => simp [dedupFirstGo]
  | cons x xs ih =>
    by_cases hx : x ∈ seen
    · simpa [dedupFirstGo, hx] using ih seen
    · simp only [dedupFirstGo, if_neg hx, List.nodup_cons]
      refine ⟨fun hmem => ?_, ih _⟩
      rw [dedupFirstGo_mem] at hmem
      exact hmem.2 (List.mem_cons_self x seen)

theorem nodup_dedupFirst {α : Type} [DecidableEq α] (l : List α) :
    (dedupFirst l).Nodup := dedupFirstGo_nodup [] l

theorem mem_flatMapL {α β : Type} {f : α → List β} {l : List α} {b : β} :
    b ∈ flatMapL f l ↔ ∃ a ∈ l, b ∈ f a := by
  simp [flatMapL]

theorem flatMapL_append {α β : Type} (f : α → List β) (l1 l2 : List α) :
    flatMapL f (l1 ++ l2) = flatMapL f l1 ++ flatMapL f l2 := by
  simp [flatMapL]

theorem rawOf_append (l1 l2 : List ScoreEvent) (i : Nat) :
    rawOf (l1 ++ l2) i = rawOf l1 i + rawOf l2 i := by
  simp [rawOf, List.filter_append]

theorem rawOf_nonneg {l : List ScoreEvent} (h : ∀ e ∈ l, 0 ≤ e.2) (i : Nat) :
    0 ≤ rawOf l i := by
  apply List.sum_nonneg
  intro x hx
  simp only [List.mem_map] at hx
  obtain ⟨e, he, rfl⟩ := hx
  exact h e (List.mem_of_mem_filter he)

theorem le_rawOf {l : List ScoreEvent} {i : Nat} {w : ℚ}
    (h : ∀ e ∈ l, 0 ≤ e.2) (hw : (i, w) ∈ l) : w ≤ rawOf l i := by
  apply List.single_le_sum
  · intro x hx
    simp only [List.mem_map] at hx
    obtain ⟨e, he, rfl⟩ := hx
    exact h e (List.mem_of_mem_filter he)
  · exact List.mem_map.mpr ⟨(i, w), List.mem_filter.mpr ⟨hw, by simp⟩, rfl⟩

theorem rawOf_eq_zero {l : List ScoreEvent} {i : Nat}
    (h : ∀ e ∈ l, e.1 ≠ i) : rawOf l i = 0 := by
  have hf : l.filter (fun e => e.1 == i) = [] := by
    rw [List.filter_eq_nil_iff]
    intro e he
    simpa using h e he
  simp [rawOf, hf]

theorem rawOf_eq_sum {l : List ScoreEvent} {i : Nat}
    (h : ∀ e ∈ l, e.1 = i) : rawOf l i = (l.map (fun e => e.2)).sum := by
  have hf : l.filter (fun e => e.1 == i) = l := by
    rw [List.filter_eq_self]
    intro e he
    simpa using h e he
  simp [rawOf, hf]

theorem rawOf_flat_range {f : Nat → List ScoreEvent}
    (hf : ∀ j, ∀ e ∈ f j, e.1 = j) :
    ∀ n i, i < n →
      rawOf (flatMapL f (List.range n)) i = ((f i).map (fun e => e.2)).sum := by
  intro n
  induction n with
  | zero => intro i hi; omega
  | succ n ih =>
    intro i hi
    rw [List.range_succ, flatMapL_append, rawOf_append]
    rcases Nat.lt_or_ge i n with h | h
    · rw [ih i h, rawOf_eq_zero (l := flatMapL f [n]), add_zero]
      intro e he
      rw [mem_flatMapL] at he
      obtain ⟨j, hj, hej⟩ := he
      simp only [List.mem_singleton] at hj
      subst hj
      have := hf j e hej
      omega
    · have hin : i = n := by omega
      subst hin
      rw [rawOf_eq_zero (l := flatMapL f (List.range i)) ?_]
      · have : flatMapL f [i] = f i := by simp [flatMapL]
        rw [this, zero_add, rawOf_eq_sum (hf i)]
      · intro e he
        rw [mem_flatMapL] at he
        obtain ⟨j, hj, hej⟩ := he
        have := hf j e hej
        have := List.mem_range.mp hj
        omega

theorem insertByScore_perm (r : SearchResult) (l : List SearchResult) :
    (insertByScore r l).Perm (r :: l) := by
  induction l with
  | nil => exact List.Perm.refl _
  | cons x xs ih =>
    simp only [insertByScore]
    split
    · exact List.Perm.refl _
    · exact (ih.cons x).trans (List.Perm.swap r x xs)

theorem sortByScoreDesc_perm (l : List SearchResult) :
    (sortByScoreDesc l).Perm l := by
  induction l with
  | nil => exact List.Perm.refl _
  | cons x xs ih =>
    exact (insertByScore_perm x (sortByScoreDesc xs)).trans (ih.cons x)

theorem length_sortByScoreDesc (l : List SearchResult) :
    (sortByScoreDesc l).length = l.length := (sortByScoreDesc_perm l).length_eq

theorem mem_sortByScoreDesc {l : List SearchResult} {r : SearchResult} :
    r ∈ sortByScoreDesc l ↔ r ∈ l := (sortByScoreDesc_perm l).mem_iff

theorem length_le_of_nodup_lt {l : List Nat} {n : Nat} (hnd : l.Nodup)
    (h : ∀ i ∈ l, i < n) : l.length ≤ n := by
  classical
  have h1 : l.toFinset.card = l.length := List.toFinset_card_of_nodup hnd
  have h2 : l.toFinset ⊆ Finset.range n := by
    intro i hi
    rw [List.mem_toFinset] at hi
    exact Finset.mem_range.mpr (h i hi)
  have h3 := Finset.card_le_card h2
  rw [h1, Finset.card_range] at h3
  exact h3

theorem jsIndexOfCharFrom_ge {s : Str} {c : Char} {start i : Nat}
    (h : jsIndexOfCharFrom s c start = some i) : start ≤ i := by
  have hp := List.find?_some h
  simp only [Bool.and_eq_true, decide_eq_true_eq] at hp
  exact hp.1

theorem jsLastIndexOfCharUpTo_le {s : Str} {c : Char} {stop i : Nat}
    (h : jsLastIndexOfCharUpTo s c stop = some i) : i ≤ stop := by
  have hm := List.mem_of_find?_eq_some h
  simp only [List.mem_reverse, List.mem_range] at hm
  omega

theorem excerptStart_ge (content : Str) (mi s0 : Nat) :
    s0 ≤ excerptStart content mi s0 := by
  unfold excerptStart
  split
  · cases h : jsIndexOfCharFrom content ' ' s0 with
    | none => simp [h]
    | some si =>
      have hge := jsIndexOfCharFrom_ge h
      simp only [h]
      split <;> omega
  · exact le_refl _

theorem excerptEnd_le (content : Str) (mi e0 : Nat) :
    excerptEnd content mi e0 ≤ e0 := by
  unfold excerptEnd
  split
  · cases h : jsLastIndexOfCharUpTo content ' ' e0 with
    | none => simp [h]
    | some si =>
      have hle := jsLastIndexOfCharUpTo_le h
      simp only [h]
      split <;> omega
  · exact le_refl _

theorem excerptAround_length_le (content query : Str) (mL mi : Nat) :
    (excerptAround content query mL mi).length ≤ mL + query.length + 6 := by
  unfold excerptAround
  have h1 := excerptStart_ge content mi (mi - mL / 2)
  have h2 := excerptEnd_le content mi
    (min content.length (mi + query.length + mL / 2))
  have h2a : excerptEnd content mi
      (min content.length (mi + query.length + mL / 2)) ≤
      mi + query.length + mL / 2 := le_trans h2 (min_le_right _ _)
  have hslice : (sliceStr content
      (excerptStart content mi (mi - mL / 2))
      (excerptEnd content mi
        (min content.length (mi + query.length + mL / 2)))).length ≤
      excerptEnd content mi (min content.length (mi + query.length + mL / 2))
        - excerptStart content mi (mi - mL / 2) := by
    simp only [sliceStr, List.length_take]
    exact min_le_left _ _
  have hpre : (if 0 < excerptStart content mi (mi - mL / 2)
      then strOf "..." else []).length ≤ 3 := by
    split
    · decide
    · simp
  have hpost : (if excerptEnd content mi
      (min content.length (mi + query.length + mL / 2)) < content.length
      then strOf "..." else []).length ≤ 3 := by
    split
    · decide
    · simp
  simp only [List.length_append]
  omega

/-- C4 (amended): the excerpt length is bounded by
`maxLength + query.length + 6`. -/
theorem extractExcerpt_length_le (content query : Str) (maxLength : Nat) :
    (extractExcerpt content query maxLength).length ≤
      maxLength + query.length + 6 := by
  unfold extractExcerpt
  cases h : excerptMatchIndex content query with
  | none =>
    simp only [List.length_append, List.length_take]
    have : (if maxLength < content.length then strOf "..." else []).length ≤ 3 := by
      split
      · decide
      · simp
    have hmin : min maxLength content.length ≤ maxLength := min_le_left _ _
    omega
  | some mi => exact excerptAround_length_le content query maxLength mi

theorem mem_if_singleton {β : Type} {b : Prop} [Decidable b] {x e : β}
    (h : e ∈ (if b then [x] else [])) : e = x ∧ b := by
  split at h
  · exact ⟨List.mem_singleton.mp h, by assumption⟩
  · simp at h

theorem calculateSimilarity_nonneg (s1 s2 : Str) :
    0 ≤ calculateSimilarity s1 s2 := by
  unfold calculateSimilarity
  dsimp only
  split
  · norm_num
  · split
    · norm_num
    · exact div_nonneg (Nat.cast_nonneg _)
        (le_trans (Nat.cast_nonneg _) le_sup_left)

theorem mem_probeField {idx : SearchIndex} {field : IndexedDocument → Option Str}
    {v : Str} {lim i : Nat} (h : i ∈ probeField idx field v lim) :
    i < idx.length := by
  unfold probeField at h
  have h1 := List.mem_of_mem_take h
  have h2 := List.mem_filter.mp h1
  exact List.mem_range.mp h2.1

theorem tokenEvents_mem {idx : SearchIndex} {q : Str} {e : ScoreEvent}
    (h : e ∈ tokenEvents idx q) : e.1 < idx.length ∧ 0 ≤ e.2 := by
  unfold tokenEvents at h
  rw [mem_flatMapL] at h
  obtain ⟨v, _, he⟩ := h
  simp only [List.mem_append] at he
  rcases he with ((h1 | h1) | h1) | h1 <;>
    obtain ⟨i, hi, rfl⟩ := List.mem_map.mp h1 <;>
    exact ⟨mem_probeField hi, by
      norm_num [WEIGHTS_title, WEIGHTS_tags, WEIGHTS_headings, WEIGHTS_content]⟩

theorem koreanDocEvents_mem {i : Nat} {doc : IndexedDocument} {q : Str}
    {e : ScoreEvent} (h : e ∈ koreanDocEvents i doc q) :
    e.1 = i ∧ 0 ≤ e.2 := by
  unfold koreanDocEvents at h
  simp only [List.mem_append] at h
  rcases h with ((h1 | h1) | h1) | h1 <;>
    obtain ⟨rfl, -⟩ := mem_if_singleton h1 <;>
    exact ⟨rfl, by
      norm_num [WEIGHTS_title, WEIGHTS_tags, WEIGHTS_headings, WEIGHTS_content]⟩

theorem koreanEvents_mem {idx : SearchIndex} {q : Str} {e : ScoreEvent}
    (h : e ∈ koreanEvents idx q) : e.1 < idx.length ∧ 0 ≤ e.2 := by
  unfold koreanEvents at h
  split at h
  · rw [mem_flatMapL] at h
    obtain ⟨i, hi, he⟩ := h
    have hi2 := List.mem_range.mp hi
    cases hd : idx[i]? with
    | none => rw [hd] at he; simp at he
    | some doc =>
      rw [hd] at he
      have hm := koreanDocEvents_mem he
      exact ⟨hm.1 ▸ hi2, hm.2⟩
  · simp at h

theorem fuzzyEvents_mem {idx : SearchIndex} {q : Str} {opts : SearchOptions}
    {e : ScoreEvent} (h : e ∈ fuzzyEvents idx q opts) :
    e.1 < idx.length ∧ 0 ≤ e.2 := by
  unfold fuzzyEvents at h
  split at h
  · rw [mem_flatMapL] at h
    obtain ⟨i, hi, he⟩ := h
    have hi2 := List.mem_range.mp hi
    cases hd : idx[i]? with
    | none => rw [hd] at he; simp at he
    | some doc =>
      rw [hd] at he
      obtain ⟨rfl, -⟩ := mem_if_singleton he
      refine ⟨hi2, ?_⟩
      have := calculateSimilarity_nonneg doc.title q
      have : (0 : ℚ) ≤ WEIGHTS_title * calculateSimilarity doc.title q :=
        mul_nonneg (by norm_num [WEIGHTS_title]) this
      simpa using this
  · simp at h

theorem searchEvents_mem {idx : SearchIndex} {q : Str} {opts : SearchOptions}
    {e : ScoreEvent} (h : e ∈ searchEvents idx q opts) :
    e.1 < idx.length ∧ 0 ≤ e.2 := by
  unfold searchEvents at h
  simp only [List.mem_append] at h
  rcases h with (h | h) | h
  · exact tokenEvents_mem h
  · exact koreanEvents_mem h
  · exact fuzzyEvents_mem h

theorem mem_searchIds {idx : SearchIndex} {q : Str} {opts : SearchOptions}
    {i : Nat} : i ∈ searchIds idx q opts ↔
      ∃ w, (i, w) ∈ searchEvents idx q opts := by
  unfold searchIds
  rw [mem_dedupFirst]
  simp only [List.mem_map]
  constructor
  · rintro ⟨e, he, rfl⟩
    exact ⟨e.2, he⟩
  · rintro ⟨w, hw⟩
    exact ⟨(i, w), hw, rfl⟩

theorem searchIds_lt {idx : SearchIndex} {q : Str} {opts : SearchOptions}
    {i : Nat} (h : i ∈ searchIds idx q opts) : i < idx.length := by
  obtain ⟨w, hw⟩ := mem_searchIds.mp h
  exact (searchEvents_mem hw).1

theorem searchIds_nodup (idx : SearchIndex) (q : Str) (opts : SearchOptions) :
    (searchIds idx q opts).Nodup := nodup_dedupFirst _

theorem searchIds_length_le (idx : SearchIndex) (q : Str)
    (opts : SearchOptions) : (searchIds idx q opts).length ≤ idx.length :=
  length_le_of_nodup_lt (searchIds_nodup idx q opts)
    (fun _ hi => searchIds_lt hi)

theorem length_filterMap_of_isSome {α β : Type} {f : α → Option β} :
    ∀ {l : List α}, (∀ a ∈ l, (f a).isSome) →
      (l.filterMap f).length = l.length := by
  intro l
  induction l with
  | nil => simp
  | cons x xs ih =>
    intro h
    rw [List.filterMap_cons]
    cases hf : f x with
    | none =>
      have := h x (List.mem_cons_self x xs)
      rw [hf] at this
      simp at this
    | some b => simp [ih (fun a ha => h a (List.mem_cons_of_mem x ha))]

theorem length_searchResultsPre (idx : SearchIndex) (q : Str)
    (opts : SearchOptions) :
    (searchResultsPre idx q opts).length = (searchIds idx q opts).length := by
  unfold searchResultsPre
  apply length_filterMap_of_isSome
  intro i hi
  have hlt := searchIds_lt hi
  rw [List.getElem?_eq_getElem hlt]
  simp

theorem mem_searchResultsPre_of {idx : SearchIndex} {q : Str}
    {opts : SearchOptions} {i : Nat} {doc : IndexedDocument}
    (hi : i ∈ searchIds idx q opts) (hdoc : idx[i]? = some doc) :
    mkSearchResult doc q (searchRawScore idx q opts i) ∈
      searchResultsPre idx q opts := by
  unfold searchResultsPre
  exact List.mem_filterMap.mpr ⟨i, hi, by rw [hdoc]; rfl⟩

theorem mem_searchResultsPre {idx : SearchIndex} {q : Str}
    {opts : SearchOptions} {r : SearchResult}
    (h : r ∈ searchResultsPre idx q opts) :
    ∃ i doc, i ∈ searchIds idx q opts ∧ idx[i]? = some doc ∧
      r = mkSearchResult doc q (searchRawScore idx q opts i) := by
  unfold searchResultsPre at h
  obtain ⟨i, hi, hf⟩ := List.mem_filterMap.mp h
  cases hd : idx[i]? with
  | none => rw [hd] at hf; simp at hf
  | some doc =>
    rw [hd] at hf
    simp only [Option.map_some'] at hf
    exact ⟨i, doc, hi, hd, (Option.some.inj hf).symm⟩

theorem mem_search_of {idx : SearchIndex} {q : Str} {opts : SearchOptions}
    {r : SearchResult} (hq : trim q ≠ [])
    (hlen : (searchIds idx q opts).length ≤ opts.limit.getD 20)
    (hr : r ∈ searchResultsPre idx q opts) : r ∈ search idx q opts := by
  unfold search
  rw [if_neg (by simpa [List.isEmpty_iff] using hq)]
  have hl : (sortByScoreDesc (searchResultsPre idx q opts)).length ≤
      opts.limit.getD 20 := by
    rw [length_sortByScoreDesc, length_searchResultsPre]
    exact hlen
  rw [List.take_of_length_le hl]
  exact mem_sortByScoreDesc.mpr hr

theorem of_mem_search {idx : SearchIndex} {q : Str} {opts : SearchOptions}
    {r : SearchResult} (h : r ∈ search idx q opts) :
    r ∈ searchResultsPre idx q opts := by
  unfold search at h
  split at h
  · simp at h
  · exact mem_sortByScoreDesc.mp (List.mem_of_mem_take h)

theorem isWs_eq_of_toNat {a b : Char} (h : a.toNat = b.toNat) :
    isWs a = isWs b := by
  unfold isWs
  rw [h]

theorem isWs_false_of_between {c : Char} (h1 : 33 ≤ c.toNat)
    (h2 : c.toNat ≤ 159) : isWs c = false := by
  rw [Bool.eq_false_iff]
  intro hws
  simp only [isWs, Bool.or_eq_true, Bool.and_eq_true, decide_eq_true_eq,
    beq_iff_eq] at hws
  omega

theorem toNat_toLower (c : Char) : (Char.toLower c).toNat =
    if 65 ≤ c.toNat ∧ c.toNat ≤ 90 then c.toNat + 32 else c.toNat := by
  unfold Char.toLower
  split
  · rename_i h
    rw [if_pos ⟨h.1, h.2⟩]
    unfold Char.ofNat
    split
    · rfl
    · rename_i hn
      exfalso
      apply hn
      left
      omega
  · rename_i h
    rw [if_neg h]

theorem isWs_toLower (c : Char) : isWs (Char.toLower c) = isWs c := by
  have ht := toNat_toLower c
  by_cases h : 65 ≤ c.toNat ∧ c.toNat ≤ 90
  · rw [if_pos h] at ht
    rw [isWs_false_of_between (c := Char.toLower c) (by omega) (by omega),
      isWs_false_of_between (by omega) (by omega)]
  · rw [if_neg h] at ht
    exact isWs_eq_of_toNat ht

theorem dropWhile_isWs_eq_self {s : Str} (h : ∀ c ∈ s, isWs c = false) :
    s.dropWhile isWs = s := by
  cases s with
  | nil => rfl
  | cons c cs =>
    rw [List.dropWhile_cons, h c (List.mem_cons_self c cs)]
    simp

theorem trim_eq_self {s : Str} (h : ∀ c ∈ s, isWs c = false) :
    trim s = s := by
  unfold trim
  rw [dropWhile_isWs_eq_self h, dropWhile_isWs_eq_self (by
    intro c hc
    exact h c (List.mem_reverse.mp hc)), List.reverse_reverse]

theorem wordsOfGo_all_not_ws {s : Str} (h : ∀ c ∈ s, isWs c = false) :
    ∀ cur, wordsOfGo cur s =
      if cur = [] ∧ s = [] then [] else [cur.reverse ++ s] := by
  induction s with
  | nil =>
    intro cur
    by_cases hc : cur = []
    · simp [wordsOfGo, hc]
    · simp [wordsOfGo, hc, List.isEmpty_iff]
  | cons c cs ih =>
    intro cur
    have hc := h c (List.mem_cons_self c cs)
    rw [if_neg (by simp)]
    simp only [wordsOfGo, hc, Bool.false_eq_true, if_false]
    rw [ih (fun x hx => h x (List.mem_cons_of_mem c hx)) (c :: cur)]
    rw [if_neg (by simp)]
    simp

theorem wordsOf_single {s : Str} (hne : s ≠ [])
    (h : ∀ c ∈ s, isWs c = false) : wordsOf s = [s] := by
  unfold wordsOf
  rw [wordsOfGo_all_not_ws h []]
  simp [hne]

theorem wordsOfGo_mem_not_ws {w : Str} :
    ∀ {s : Str} {cur : Str}, w ∈ wordsOfGo cur s →
      (∀ c ∈ cur, isWs c = false) → ∀ c ∈ w, isWs c = false := by
  intro s
  induction s with
  | nil =>
    intro cur hw hcur
    simp only [wordsOfGo] at hw
    split at hw
    · simp at hw
    · rw [List.mem_singleton] at hw
      subst hw
      intro c hc
      exact hcur c (List.mem_reverse.mp hc)
  | cons c cs ih =>
    intro cur hw hcur
    simp only [wordsOfGo] at hw
    by_cases hws : isWs c
    · rw [if_pos hws] at hw
      split at hw
      · exact ih hw (by simp)
      · rcases List.mem_cons.mp hw with h1 | h1
        · subst h1
          intro x hx
          exact hcur x (List.mem_reverse.mp hx)
        · exact ih h1 (by simp)
    · rw [if_neg hws] at hw
      refine ih hw ?_
      intro x hx
      rcases List.mem_cons.mp hx with h1 | h1
      · subst h1
        exact Bool.eq_false_iff.mpr hws
      · exact hcur x h1

theorem wordsOf_mem_not_ws {s w : Str} (hw : w ∈ wordsOf s) :
    ∀ c ∈ w, isWs c = false :=
  wordsOfGo_mem_not_ws hw (by simp)

theorem self_mem_normalizeKoreanQuery (q : Str) :
    q ∈ normalizeKoreanQuery q := by
  unfold normalizeKoreanQuery
  split
  · simp
  · split
    · rw [mem_dedupFirst]
      simp
    · rw [mem_dedupFirst]
      simp

theorem jsRound_mono {p q : ℚ} (h : p ≤ q) : jsRound p ≤ jsRound q :=
  Int.floor_le_floor (by linarith)

theorem jsRound_hundred : jsRound 100 = 100 := by
  unfold jsRound
  rw [Int.floor_eq_iff]
  constructor
  · push_cast
    norm_num
  · push_cast
    norm_num

theorem jsRound_nonneg {q : ℚ} (h : 0 ≤ q) : 0 ≤ jsRound q := by
  unfold jsRound
  exact Int.le_floor.mpr (by push_cast; linarith)

/-- The `Math.min(100, Math.round(x))` equals `round(min(100, x))`. -/
theorem min_jsRound_eq (x : ℚ) :
    min 100 (jsRound x) = jsRound (min 100 x) := by
  rcases le_total x 100 with h | h
  · rw [min_eq_right h, min_eq_right]
    exact le_trans (jsRound_mono h) (le_of_eq jsRound_hundred)
  · rw [min_eq_left h, min_eq_left, jsRound_hundred]
    rw [← jsRound_hundred]
    exact jsRound_mono h

theorem maxPossibleScore_pos : (0 : ℚ) < maxPossibleScore := by
  norm_num [maxPossibleScore, WEIGHTS_title, WEIGHTS_tags, WEIGHTS_headings,
    WEIGHTS_content]

theorem searchRawScore_nonneg (idx : SearchIndex) (q : Str)
    (opts : SearchOptions) (i : Nat) : 0 ≤ searchRawScore idx q opts i :=
  rawOf_nonneg (fun _ he => (searchEvents_mem he).2) i

/-- C5: every result returned by `search` is the record built for some
indexed document (in particular it carries that document's slug), its
score is `round(min(100, 100 × rawScore / (3.0+2.5+2.0+1.0)))` for that
same document's accumulated raw score, and that score is an integer in
`[0, 100]`. -/
theorem search_score_normalized (idx : SearchIndex) (q : Str)
    (opts : SearchOptions) (r : SearchResult) (hr : r ∈ search idx q opts) :
    (∃ i doc, i < idx.length ∧ idx[i]? = some doc ∧
      r = mkSearchResult doc q (searchRawScore idx q opts i) ∧
      r.slug = doc.slug ∧ r.score =
      jsRound (min 100 (100 * searchRawScore idx q opts i / maxPossibleScore))) ∧
    0 ≤ r.score ∧ r.score ≤ 100 := by
  obtain ⟨i, doc, hi, hdoc, rfl⟩ := mem_searchResultsPre (of_mem_search hr)
  have hlt := searchIds_lt hi
  have hraw := searchRawScore_nonneg idx q opts i
  refine ⟨⟨i, doc, hlt, hdoc, rfl, rfl, ?_⟩, ?_, ?_⟩
  · show min 100 (jsRound (searchRawScore idx q opts i / maxPossibleScore * 100)) = _
    rw [min_jsRound_eq]
    congr 2
    ring
  · show 0 ≤ min 100 (jsRound (searchRawScore idx q opts i / maxPossibleScore * 100))
    refine le_min (by norm_num) (jsRound_nonneg ?_)
    exact mul_nonneg (div_nonneg hraw (le_of_lt maxPossibleScore_pos))
      (by norm_num)
  · exact min_le_left _ _

theorem koreanDocEvents_sum (i : Nat) (doc : IndexedDocument) (q : Str) :
    ((koreanDocEvents i doc q).map (fun e => e.2)).sum = koreanContrib doc q := by
  unfold koreanDocEvents koreanContrib
  split_ifs <;> simp <;> ring

/-- C6: the Korean-specific pass contributes to a document's raw score
iff the original query contains Korean or is chosung-only, its per-field
contributions are 0.8 × the field weights as given by `koreanContrib`,
and they add to (do not replace) the token-index and fuzzy components. -/
theorem searchRawScore_korean_decomposition (idx : SearchIndex) (q : Str)
    (opts : SearchOptions) (i : Nat) (doc : IndexedDocument)
    (hi : i < idx.length) (hdoc : idx[i]? = some doc) :
    searchRawScore idx q opts i =
      rawOf (tokenEvents idx q) i +
      (if containsKorean q || isChosungOnly q then koreanContrib doc q
        else 0) +
      rawOf (fuzzyEvents idx q opts) i := by
  unfold searchRawScore searchEvents
  rw [rawOf_append, rawOf_append]
  congr 1
  congr 1
  unfold koreanEvents
  split
  · rw [rawOf_flat_range ?hf idx.length i hi]
    case hf =>
      intro j e he
      cases hd : idx[j]? with
      | none => rw [hd] at he; simp at he
      | some d =>
        rw [hd] at he
        exact (koreanDocEvents_mem he).1
    rw [hdoc]
    exact koreanDocEvents_sum i doc q
  · simp [rawOf]

/-- C8: a query that trims to empty makes `search` return the empty list
immediately, for any index and options. -/
theorem search_empty_query (idx : SearchIndex) (q : Str)
    (opts : SearchOptions) (h : trim q = []) : search idx q opts = [] := by
  unfold search
  rw [if_pos (by rw [h]; rfl)]

/-- C7: with no token-index and no Korean-pass events, `search` returns
the empty list when fuzzy is disabled; when fuzzy is enabled the raw
score of every document is exactly `title weight × similarity` when its
title similarity reaches the threshold and `0` otherwise. -/
theorem fuzzy_fallback_spec (idx : SearchIndex) (q : Str)
    (opts : SearchOptions) (htok : tokenEvents idx q = [])
    (hkor : koreanEvents idx q = []) :
    (opts.fuzzy.getD true = false → search idx q opts = []) ∧
    (opts.fuzzy.getD true = true → ∀ i, i < idx.length →
      ∀ doc, idx[i]? = some doc →
      searchRawScore idx q opts i =
        if opts.threshold.getD 0.3 ≤ calculateSimilarity doc.title q
        then WEIGHTS_title * calculateSimilarity doc.title q else 0) := by
  constructor
  · intro hf
    have hfz : fuzzyEvents idx q opts = [] := by
      unfold fuzzyEvents
      rw [hf]
      simp
    have hev : searchEvents idx q opts = [] := by
      unfold searchEvents
      rw [htok, hkor, hfz]
      rfl
    unfold search
    split
    · rfl
    · unfold searchResultsPre searchIds
      rw [hev]
      simp [dedupFirst, dedupFirstGo, sortByScoreDesc]
  · intro hf i hi doc hdoc
    have hcond : (opts.fuzzy.getD true &&
        (tokenEvents idx q ++ koreanEvents idx q).isEmpty) = true := by
      rw [htok, hkor, hf]
      rfl
    unfold searchRawScore searchEvents
    rw [htok, hkor]
    simp only [List.nil_append]
    unfold fuzzyEvents
    rw [if_pos hcond]
    rw [rawOf_flat_range ?hfz idx.length i hi]
    case hfz =>
      intro j e he
      cases hd : idx[j]? with
      | none => rw [hd] at he; simp at he
      | some d =>
        rw [hd] at he
        exact congrArg Prod.fst (mem_if_singleton he).1
    rw [hdoc]
    dsimp only
    split <;> simp

theorem length_eq_of_nodup_mem_iff {l : List Nat} {n : Nat} (hnd : l.Nodup)
    (h : ∀ i, i ∈ l ↔ i < n) : l.length = n := by
  classical
  have h1 : l.toFinset = Finset.range n := by
    ext i
    simp [List.mem_toFinset, h, Finset.mem_range]
  have h2 : l.toFinset.card = l.length := List.toFinset_card_of_nodup hnd
  rw [h1, Finset.card_range] at h2
  exact h2.symm

/-- C9: fuzzy enabled with threshold 0 and no token/Korean score makes
every indexed document a candidate: the result count is
`min(limit, #docs)`, and when the corpus fits within the limit every
document appears with score `min(100, round(3 × similarity / 8.5 × 100))`
— which is 0 for a title sharing no characters with the query. -/
theorem fuzzy_threshold_zero_covers (idx : SearchIndex) (q : Str)
    (opts : SearchOptions) (htok : tokenEvents idx q = [])
    (hkor : koreanEvents idx q = []) (hfz : opts.fuzzy.getD true = true)
    (hth : opts.threshold.getD 0.3 = 0) (hq : trim q ≠ []) :
    (search idx q opts).length = min (opts.limit.getD 20) idx.length ∧
    (idx.length ≤ opts.limit.getD 20 → ∀ i, (hi : i < idx.length) →
      ∃ r ∈ search idx q opts, r.slug = (idx.get ⟨i, hi⟩).slug ∧
        r.score = min 100 (jsRound (WEIGHTS_title *
          calculateSimilarity (idx.get ⟨i, hi⟩).title q /
            maxPossibleScore * 100))) := by
  have hcond : (opts.fuzzy.getD true &&
      (tokenEvents idx q ++ koreanEvents idx q).isEmpty) = true := by
    rw [htok, hkor, hfz]
    rfl
  have hfe : fuzzyEvents idx q opts = flatMapL (fun j =>
      match idx[j]? with
      | some doc => [(j, WEIGHTS_title * calculateSimilarity doc.title q)]
      | none => []) (List.range idx.length) := by
    unfold fuzzyEvents
    rw [if_pos hcond]
    congr 1
    funext j
    cases hd : idx[j]? with
    | none => rfl
    | some doc =>
      simp only
      rw [if_pos (by rw [hth]; exact calculateSimilarity_nonneg _ _)]
  have hmem : ∀ i, i ∈ searchIds idx q opts ↔ i < idx.length := by
    intro i
    rw [mem_searchIds]
    constructor
    · rintro ⟨w, hw⟩
      exact (searchEvents_mem hw).1
    · intro hi
      have hdoc : idx[i]? = some (idx.get ⟨i, hi⟩) := by
        rw [List.getElem?_eq_getElem hi, List.get_eq_getElem]
      refine ⟨WEIGHTS_title * calculateSimilarity (idx.get ⟨i, hi⟩).title q, ?_⟩
      unfold searchEvents
      rw [htok, hkor]
      simp only [List.nil_append]
      rw [hfe, mem_flatMapL]
      refine ⟨i, List.mem_range.mpr hi, ?_⟩
      rw [hdoc]
      exact List.mem_singleton.mpr rfl
  have hlen_ids : (searchIds idx q opts).length = idx.length :=
    length_eq_of_nodup_mem_iff (searchIds_nodup idx q opts) hmem
  constructor
  · unfold search
    rw [if_neg (by simpa [List.isEmpty_iff] using hq)]
    rw [List.length_take, length_sortByScoreDesc, length_searchResultsPre,
      hlen_ids]
  · intro hn i hi
    have hdoc : idx[i]? = some (idx.get ⟨i, hi⟩) := by
      rw [List.getElem?_eq_getElem hi, List.get_eq_getElem]
    have hiid : i ∈ searchIds idx q opts := (hmem i).mpr hi
    have hraw : searchRawScore idx q opts i =
        WEIGHTS_title * calculateSimilarity (idx.get ⟨i, hi⟩).title q := by
      unfold searchRawScore searchEvents
      rw [htok, hkor]
      simp only [List.nil_append]
      rw [hfe, rawOf_flat_range ?hfr idx.length i hi]
      case hfr =>
        intro j e he
        cases hd : idx[j]? with
        | none => rw [hd] at he; simp at he
        | some d =>
          rw [hd] at he
          obtain rfl := List.mem_singleton.mp he
          rfl
      rw [hdoc]
      simp
    refine ⟨mkSearchResult (idx.get ⟨i, hi⟩) q (searchRawScore idx q opts i),
      ?_, rfl, ?_⟩
    · refine mem_search_of hq ?_ (mem_searchResultsPre_of hiid hdoc)
      rw [hlen_ids]
      exact hn
    · show min 100 (jsRound (searchRawScore idx q opts i /
        maxPossibleScore * 100)) = _
      rw [hraw]

/-- C10: scores accumulate per document id, so `search` yields at most
one result per indexed document: its length is at most
`min(limit, #docs)`, and pairwise-distinct index slugs give
pairwise-distinct result slugs. -/
theorem search_one_result_per_doc (idx : SearchIndex) (q : Str)
    (opts : SearchOptions) :
    (search idx q opts).length ≤ min (opts.limit.getD 20) idx.length ∧
    ((idx.map (fun d => d.slug)).Nodup →
      ((search idx q opts).map (fun r => r.slug)).Nodup) := by
  constructor
  · unfold search
    split
    · simp
    · rw [List.length_take, length_sortByScoreDesc, length_searchResultsPre]
      exact min_le_min (le_refl _) (searchIds_length_le idx q opts)
  · intro hslug
    have hpre : ((searchResultsPre idx q opts).map (fun r => r.slug)).Nodup := by
      unfold searchResultsPre
      rw [List.map_filterMap]
      refine List.Nodup.filterMap ?_ (searchIds_nodup idx q opts)
      intro a b s ha hb
      simp only [Option.map_map, Option.mem_def] at ha hb
      cases hda : idx[a]? with
      | none => rw [hda] at ha; simp at ha
      | some da =>
        cases hdb : idx[b]? with
        | none => rw [hdb] at hb; simp at hb
        | some db =>
          rw [hda] at ha
          rw [hdb] at hb
          simp only [Option.map_some', Option.some.injEq] at ha hb
          have hsa : da.slug = s := ha
          have hsb : db.slug = s := hb
          have hla : a < idx.length := by
            by_contra hcon
            rw [List.getElem?_eq_none (by omega)] at hda
            exact Option.noConfusion hda
          have hlb : b < idx.length := by
            by_contra hcon
            rw [List.getElem?_eq_none (by omega)] at hdb
            exact Option.noConfusion hdb
          have hga : (idx.map (fun d => d.slug)).get
              ⟨a, by simpa using hla⟩ = s := by
            rw [List.get_map]
            have : idx.get ⟨a, hla⟩ = da := by
              have := List.getElem?_eq_getElem hla
              rw [hda] at this
              rw [List.get_eq_getElem]
              exact (Option.some.inj this).symm
            rw [this, hsa]
          have hgb : (idx.map (fun d => d.slug)).get
              ⟨b, by simpa using hlb⟩ = s := by
            rw [List.get_map]
            have : idx.get ⟨b, hlb⟩ = db := by
              have := List.getElem?_eq_getElem hlb
              rw [hdb] at this
              rw [List.get_eq_getElem]
              exact (Option.some.inj this).symm
            rw [this, hsb]
          have := hslug.get_inj_iff.mp (hga.trans hgb.symm)
          exact congrArg Fin.val this
    have hsort : ((sortByScoreDesc (searchResultsPre idx q opts)).map
        (fun r => r.slug)).Nodup :=
      (((sortByScoreDesc_perm (searchResultsPre idx q opts)).map _).nodup_iff).mpr
        hpre
    unfold search
    split
    · simp
    · rw [List.map_take]
      exact hsort.sublist (List.take_sublist _ _)

theorem isChosungChar_not_ws {c : Char} (h : isChosungChar c = true) :
    isWs c = false := by
  simp only [isChosungChar, Bool.and_eq_true, decide_eq_true_eq] at h
  rw [Bool.eq_false_iff]
  intro hws
  simp only [isWs, Bool.or_eq_true, Bool.and_eq_true, decide_eq_true_eq,
    beq_iff_eq] at hws
  omega

/-- C2 (amended): a chosung-only query that occurs as a contiguous
substring of a document's title chosung sequence returns that document
with a nonzero score, for a corpus within the default limit. -/
theorem chosung_substring_search (idx : SearchIndex) (Q : Str) (i : Nat)
    (hi : i < idx.length) (h20 : idx.length ≤ 20)
    (hch : isChosungOnly Q = true)
    (hinc : strIncludes (getChoseong (idx.get ⟨i, hi⟩).title) Q = true) :
    ∃ r ∈ search idx Q {}, r.slug = (idx.get ⟨i, hi⟩).slug ∧ 0 < r.score := by
  have hdoc : idx[i]? = some (idx.get ⟨i, hi⟩) := by
    rw [List.getElem?_eq_getElem hi, List.get_eq_getElem]
  have hQne : Q ≠ [] := by
    intro hq
    rw [hq] at hch
    simp [isChosungOnly] at hch
  have hQnw : ∀ c ∈ Q, isWs c = false := by
    intro c hc
    have hch2 := hch
    simp only [isChosungOnly, Bool.and_eq_true] at hch2
    exact isChosungChar_not_ws (List.all_eq_true.mp hch2.2 c hc)
  have htrim : trim Q = Q := trim_eq_self hQnw
  have hkm : koreanMatch (idx.get ⟨i, hi⟩).title Q = true := by
    unfold koreanMatch
    cases hb : strIncludes (strLower (idx.get ⟨i, hi⟩).title) (strLower Q) with
    | true => simp
    | false =>
      rw [if_neg (by simp), if_pos hch]
      unfold chosungIncludes
      exact hinc
  have hev : ((i : Nat), WEIGHTS_title * 0.8) ∈ searchEvents idx Q {} := by
    unfold searchEvents
    refine List.mem_append.mpr (Or.inl (List.mem_append.mpr (Or.inr ?_)))
    unfold koreanEvents
    rw [if_pos (by rw [hch]; simp)]
    rw [mem_flatMapL]
    refine ⟨i, List.mem_range.mpr hi, ?_⟩
    rw [hdoc]
    unfold koreanDocEvents
    refine List.mem_append.mpr (Or.inl (List.mem_append.mpr (Or.inl
      (List.mem_append.mpr (Or.inl ?_)))))
    rw [if_pos hkm]
    exact List.mem_singleton.mpr rfl
  have hiid : i ∈ searchIds idx Q {} := mem_searchIds.mpr ⟨_, hev⟩
  have hraw : WEIGHTS_title * 0.8 ≤ searchRawScore idx Q {} i :=
    le_rawOf (fun _ he => (searchEvents_mem he).2) hev
  refine ⟨mkSearchResult (idx.get ⟨i, hi⟩) Q (searchRawScore idx Q {} i),
    ?_, rfl, ?_⟩
  · refine mem_search_of (by rw [htrim]; exact hQne) ?_
      (mem_searchResultsPre_of hiid hdoc)
    exact le_trans (searchIds_length_le _ _ _) h20
  · show 0 < min 100 (jsRound (searchRawScore idx Q {} i /
      maxPossibleScore * 100))
    refine lt_min (by norm_num) ?_
    have h0 : (0 : ℚ) ≤ 1 / maxPossibleScore * 100 := by
      norm_num [maxPossibleScore, WEIGHTS_title, WEIGHTS_tags,
        WEIGHTS_headings, WEIGHTS_content]
    have hX : (WEIGHTS_title * 0.8) / maxPossibleScore * 100 ≤
        searchRawScore idx Q {} i / maxPossibleScore * 100 := by
      calc (WEIGHTS_title * 0.8) / maxPossibleScore * 100
          = (WEIGHTS_title * 0.8) * (1 / maxPossibleScore * 100) := by ring
        _ ≤ searchRawScore idx Q {} i * (1 / maxPossibleScore * 100) :=
          mul_le_mul_of_nonneg_right hraw h0
        _ = searchRawScore idx Q {} i / maxPossibleScore * 100 := by ring
    have h28 : jsRound ((WEIGHTS_title * 0.8) / maxPossibleScore * 100) = 28 := by
      decide
    have hmono := jsRound_mono hX
    omega

theorem createSearchIndex_length (documents : List Document) :
    (createSearchIndex documents).length = documents.length := by
  simp [createSearchIndex]

theorem createSearchIndex_getElem (documents : List Document) (i : Nat)
    (hi : i < documents.length) :
    (createSearchIndex documents)[i]? = some (indexedAt documents i hi) := by
  unfold createSearchIndex indexedAt
  rw [List.getElem?_map, List.getElem?_enum, List.getElem?_eq_getElem hi]
  simp [List.get_eq_getElem]

/-- C1 (amended): when the lowercased query `S` (length at least 2,
whitespace-free) is a prefix of some whitespace-delimited word of the
document's lowercased title, `search` with default options over an index
of at most 20 documents built by `createSearchIndex` returns that
document. -/
theorem title_word_prefix_search (documents : List Document) (i : Nat)
    (S : Str) (hi : i < documents.length) (h20 : documents.length ≤ 20)
    (hlen : 2 ≤ S.length) (hnw : ∀ c ∈ S, isWs c = false)
    (hpre : ∃ w ∈ wordsOf (strLower (documents.get ⟨i, hi⟩).title),
      (strLower S).isPrefixOf w = true) :
    ∃ r ∈ search (createSearchIndex documents) S {},
      r.slug = (documents.get ⟨i, hi⟩).slug := by
  have hlen_idx := createSearchIndex_length documents
  have hi2 : i < (createSearchIndex documents).length := by omega
  have hdoc := createSearchIndex_getElem documents i hi
  have hSne : S ≠ [] := by
    intro h
    rw [h] at hlen
    simp at hlen
  have htrim : trim S = S := trim_eq_self hnw
  have hlowne : strLower S ≠ [] := by
    simp only [strLower, ne_eq, List.map_eq_nil]
    exact hSne
  have hlownw : ∀ c ∈ strLower S, isWs c = false := by
    intro c hc
    obtain ⟨x, hx, rfl⟩ := List.mem_map.mp hc
    rw [isWs_toLower]
    exact hnw x hx
  have hwords : wordsOf (strLower S) = [strLower S] :=
    wordsOf_single hlowne hlownw
  obtain ⟨w, hw, hwp⟩ := hpre
  have hmatch : indexQueryMatch (documents.get ⟨i, hi⟩).title S = true := by
    unfold indexQueryMatch
    rw [hwords]
    simp only [List.isEmpty_cons, Bool.not_false, Bool.true_and,
      List.all_cons, List.all_nil, Bool.and_true]
    exact List.any_eq_true.mpr ⟨w, hw, hwp⟩
  have hprobe : i ∈ probeField (createSearchIndex documents) titleField S 50 := by
    unfold probeField
    have hfilter : i ∈ (List.range (createSearchIndex documents).length).filter
        (fun j => match (createSearchIndex documents)[j]? with
          | some d => match titleField d with
            | some text => indexQueryMatch text S
            | none => false
          | none => false) := by
      refine List.mem_filter.mpr ⟨List.mem_range.mpr hi2, ?_⟩
      rw [hdoc]
      exact hmatch
    rw [List.take_of_length_le ?_]
    · exact hfilter
    · have h1 := (List.filter_sublist (l :=
        List.range (createSearchIndex documents).length)
        (p := fun j => match (createSearchIndex documents)[j]? with
          | some d => match titleField d with
            | some text => indexQueryMatch text S
            | none => false
          | none => false)).length_le
      rw [List.length_range] at h1
      omega
  have hvar : S ∈ normalizeKoreanQuery (trim S) := by
    rw [htrim]
    exact self_mem_normalizeKoreanQuery S
  have hev : ((i : Nat), WEIGHTS_title) ∈
      searchEvents (createSearchIndex documents) S {} := by
    unfold searchEvents
    refine List.mem_append.mpr (Or.inl (List.mem_append.mpr (Or.inl ?_)))
    unfold tokenEvents
    rw [mem_flatMapL]
    refine ⟨S, hvar, ?_⟩
    refine List.mem_append.mpr (Or.inl (List.mem_append.mpr (Or.inl
      (List.mem_append.mpr (Or.inl ?_)))))
    exact List.mem_map.mpr ⟨i, hprobe, rfl⟩
  have hiid : i ∈ searchIds (createSearchIndex documents) S {} :=
    mem_searchIds.mpr ⟨_, hev⟩
  refine ⟨mkSearchResult (indexedAt documents i hi) S
    (searchRawScore (createSearchIndex documents) S {} i), ?_, rfl⟩
  refine mem_search_of (by rw [htrim]; exact hSne) ?_
    (mem_searchResultsPre_of hiid hdoc)
  have := searchIds_length_le (createSearchIndex documents) S {}
  show (searchIds (createSearchIndex documents) S {}).length ≤ 20
  omega

/-- C1 counterexample: `ell` is a substring of length 3 of the title
`hello` of the document with slug `a`, yet `search` with default options
over the two-document corpus returns no result for that document (the
query matches the token index only through the word `ell` of the other
document's title, so the fuzzy fallback never runs). -/
theorem title_substring_search_cex :
    strIncludes (strOf "hello") (strOf "ell") = true ∧
    2 ≤ (strOf "ell").length ∧
    ¬∃ r ∈ search (createSearchIndex [cexDocA, cexDocB]) (strOf "ell") {},
      r.slug = strOf "a" := by
  refine ⟨by decide, by decide, ?_⟩
  decide

/-- C1 witness. -/
theorem title_word_prefix_search_witness :
    ∃ r ∈ search (createSearchIndex [cexDocA]) (strOf "hel") {},
      r.slug = ([cexDocA].get ⟨0, by decide⟩).slug :=
  title_word_prefix_search [cexDocA] 0 (strOf "hel") (by decide) (by decide)
    (by decide) (by decide) (by decide)

/-- C2 counterexample: `ㄱㄷ` is a chosung-only query and a subsequence
(but not a contiguous substring) of the chosung sequence `ㄱㄴㄷ` of the
title `가나다`, yet `search` returns nothing at all. -/
theorem chosung_subsequence_search_cex :
    isChosungOnly (strOf "ㄱㄷ") = true ∧
    (strOf "ㄱㄷ").Sublist (getChoseong (strOf "가나다")) ∧
    search [kanadaDoc] (strOf "ㄱㄷ") {} = [] := by
  refine ⟨by decide, by decide, ?_⟩
  decide

/-- C2 witness. -/
theorem chosung_substring_search_witness :
    ∃ r ∈ search [projectDoc] (strOf "ㅍㄹㅈ") {},
      r.slug = ([projectDoc].get ⟨0, by decide⟩).slug ∧ 0 < r.score :=
  chosung_substring_search [projectDoc] (strOf "ㅍㄹㅈ") 0 (by decide)
    (by decide) (by decide) (by decide)

/-- C3: evaluating `normalizeKoreanQuery` at the chosung-only query `ㄱ`
returns the two-element list `[ㄱ, ㄱ]` — the chosung-only branch pushes
the query onto a list already containing it and skips the final
deduplication, contradicting both the claimed singleton variant set and
the claimed absence of duplicates. -/
theorem normalizeKoreanQuery_chosung_duplicate :
    normalizeKoreanQuery (strOf "ㄱ") = [strOf "ㄱ", strOf "ㄱ"] := by
  decide

/-- C4 counterexample: with the default `maxLength` of 150, a 200
character content that equals the query produces a 200 character
excerpt, exceeding `maxLength + 6`. -/
theorem extractExcerpt_length_cex :
    ¬(extractExcerpt (List.replicate 200 'a')
      (List.replicate 200 'a')).length ≤ 150 + 6 := by
  decide

/-- C5 witness. -/
theorem search_score_normalized_witness :
    (∃ i doc, i < ([helloDoc] : SearchIndex).length ∧
      ([helloDoc] : SearchIndex)[i]? = some doc ∧
      helloHelResult = mkSearchResult doc (strOf "hel")
        (searchRawScore [helloDoc] (strOf "hel") {} i) ∧
      helloHelResult.slug = doc.slug ∧ helloHelResult.score =
      jsRound (min 100 (100 * searchRawScore [helloDoc] (strOf "hel") {} i /
        maxPossibleScore))) ∧
    0 ≤ helloHelResult.score ∧ helloHelResult.score ≤ 100 :=
  search_score_normalized [helloDoc] (strOf "hel") {} helloHelResult
    (by decide)

/-- C6 witness. -/
theorem searchRawScore_korean_decomposition_witness :
    searchRawScore [projectDoc] (strOf "ㅍㄹㅈ") {} 0 =
      rawOf (tokenEvents [projectDoc] (strOf "ㅍㄹㅈ")) 0 +
      (if containsKorean (strOf "ㅍㄹㅈ") || isChosungOnly (strOf "ㅍㄹㅈ")
        then koreanContrib projectDoc (strOf "ㅍㄹㅈ") else 0) +
      rawOf (fuzzyEvents [projectDoc] (strOf "ㅍㄹㅈ") {}) 0 :=
  searchRawScore_korean_decomposition [projectDoc] (strOf "ㅍㄹㅈ") {} 0
    projectDoc (by decide) (by decide)

/-- C7 witness. -/
theorem fuzzy_fallback_spec_witness :
    search [helloDoc] (strOf "xyz") { fuzzy := some false } = [] :=
  (fuzzy_fallback_spec [helloDoc] (strOf "xyz") { fuzzy := some false }
    (by decide) (by decide)).1 (by decide)

/-- C8 witness. -/
theorem search_empty_query_witness :
    trim (strOf "   ") = [] ∧
    search [helloDoc] (strOf "   ") {} = [] :=
  ⟨by decide, search_empty_query [helloDoc] (strOf "   ") {} (by decide)⟩

/-- C9 witness: the query shares no character with the only title, so
the returned result has score 0. -/
theorem fuzzy_threshold_zero_covers_witness :
    (search [helloDoc] (strOf "xyz") { threshold := some 0 }).length =
      min 20 1 ∧
    ∃ r ∈ search [helloDoc] (strOf "xyz") { threshold := some 0 },
      r.slug = helloDoc.slug ∧ r.score = 0 := by
  have h := fuzzy_threshold_zero_covers [helloDoc] (strOf "xyz")
    { threshold := some 0 } (by decide) (by decide) (by decide) (by decide)
    (by decide)
  refine ⟨h.1, ?_⟩
  obtain ⟨r, hr, hslug, hscore⟩ := h.2 (by decide) 0 (by decide)
  refine ⟨r, hr, hslug, ?_⟩
  rw [hscore]
  decide

/-- C10 witness. -/
theorem search_one_result_per_doc_witness :
    (search [helloDoc] (strOf "hel") {}).length ≤ min 20 1 ∧
    ((search [helloDoc] (strOf "hel") {}).map (fun r => r.slug)).Nodup := by
  have h := search_one_result_per_doc [helloDoc] (strOf "hel") {}
  exact ⟨h.1, h.2 (by decide)⟩
